import Mathlib

/-!
Shallow embedding of `src/merkle.js` (class `MerkleTree`).

Digests (bigInt field elements) are modelled as `Nat`.  The two-input
compression function `hashLeftRight` is an abstract parameter
`H : Nat → Nat → Nat` threaded through every definition.  JS dictionaries
with dynamically created keys (`filledPaths`) are modelled as
`Nat → Nat → Option Nat`, `none` standing for an absent key; the
dictionaries `zeros` and `filledSubtrees`, whose keys `0 .. depth-1` are
all created in the constructor and only ever overwritten, are modelled as
total functions `Nat → Nat`.  A JS method that can `throw` is modelled as
returning `Except MTError β × Tree`: the second component is the state of
the tree object when the call returns or throws (the JS methods perform
no mutation before their guard checks, so the error branches return the
input tree unchanged).
-/

namespace Merkle

/-- The three error conditions thrown by the methods of `MerkleTree`. -/
inductive MTError where
  | capacityExceeded
  | leafNotInserted
  | proofMismatch
deriving DecidableEq, Repr

/-- State of a `MerkleTree` object (fields of the JS class). -/
structure Tree where
  depth : Nat
  zeroValue : Nat
  leaves : List Nat
  leafNumber : Nat
  zeros : Nat → Nat
  filledSubtrees : Nat → Nat
  filledPaths : Nat → Nat → Option Nat
  root : Nat
  nextIndex : Nat

/-- The `zeros` dictionary built by the constructor:
`zeros[0] = zeroValue`, `zeros[i] = hashLeftRight(zeros[i-1], zeros[i-1])`. -/
def zerosFun (H : Nat → Nat → Nat) (z : Nat) : Nat → Nat
  | 0 => z
  | i + 1 => H (zerosFun H z i) (zerosFun H z i)

/-- The `filledPaths` dictionary after the constructor's second loop:
for `1 ≤ i < depth` and `j < 2^(depth-i)` the entry is
`hashLeftRight(zeroValue, zeroValue)` at level 1 and
`hashLeftRight(filledSubtrees[i-1], filledSubtrees[i-1])` above
(at that point `filledSubtrees[i-1] = zeros[i-1]`, set by the first loop
and not yet overwritten); level 0 starts with no keys. -/
def initFilledPaths (H : Nat → Nat → Nat) (z : Nat) (depth : Nat) :
    Nat → Nat → Option Nat :=
  fun i j =>
    if 1 ≤ i ∧ i < depth ∧ j < 2 ^ (depth - i) then
      some (if i = 1 then H z z
            else H (zerosFun H z (i - 1)) (zerosFun H z (i - 1)))
    else none

/-- `new MerkleTree(depth, zeroValue)`. -/
def mkTree (H : Nat → Nat → Nat) (depth z : Nat) : Tree where
  depth := depth
  zeroValue := z
  leaves := []
  leafNumber := 2 ^ depth
  zeros := zerosFun H z
  filledSubtrees := zerosFun H z
  filledPaths := initFilledPaths H z depth
  root := H (zerosFun H z (depth - 1)) (zerosFun H z (depth - 1))
  nextIndex := 0

/-- `for (let i = a; i < a + r; i++) s = f(i, s)`. -/
def foldLevels {σ : Type} (f : Nat → σ → σ) : Nat → Nat → σ → σ
  | _, 0, s => s
  | a, r + 1, s => foldLevels f (a + 1) r (f a s)

/-- Loop state of `insert` / `update`: the cursor index, the running hash,
and the two mutated dictionaries. -/
structure InsLoop where
  curIdx : Nat
  cur : Nat
  fs : Nat → Nat
  fp : Nat → Nat → Option Nat

/-- One iteration of the level loop of `insert`. -/
def insertStep (H : Nat → Nat → Nat) (zeros : Nat → Nat) (i : Nat)
    (s : InsLoop) : InsLoop :=
  if s.curIdx % 2 = 0 then
    { curIdx := s.curIdx / 2
      cur := H s.cur (zeros i)
      fs := fun j => if j = i then s.cur else s.fs j
      fp := fun a b =>
        if a = i ∧ b = s.curIdx + 1 then some (zeros i)
        else if a = i ∧ b = s.curIdx then some s.cur
        else s.fp a b }
  else
    { curIdx := s.curIdx / 2
      cur := H (s.fs i) s.cur
      fs := s.fs
      fp := fun a b =>
        if a = i ∧ b = s.curIdx then some s.cur
        else if a = i ∧ b = s.curIdx - 1 then some (s.fs i)
        else s.fp a b }

/-- `MerkleTree.insert(leaf)`. -/
def insert (H : Nat → Nat → Nat) (t : Tree) (leaf : Nat) :
    Except MTError Unit × Tree :=
  if t.nextIndex + 1 > t.leafNumber then (.error .capacityExceeded, t)
  else
    let s := foldLevels (insertStep H t.zeros) 0 t.depth
      { curIdx := t.nextIndex, cur := leaf
        fs := t.filledSubtrees, fp := t.filledPaths }
    (.ok (), { t with
        nextIndex := t.nextIndex + 1
        filledSubtrees := s.fs
        filledPaths := s.fp
        root := s.cur
        leaves := t.leaves ++ [leaf] })

/-- The candidate-root computation of `leafExists`: climb `r` levels
starting at level `a`, cursor `c`, running hash `h`, combining with
`path[i]` on the side determined by the parity of the cursor. -/
def climb (H : Nat → Nat → Nat) (path : List Nat) :
    Nat → Nat → Nat → Nat → Nat
  | 0, _, _, h => h
  | r + 1, a, c, h =>
      climb H path r (a + 1) (c / 2)
        (if c % 2 = 0 then H h (path.getD a 0) else H (path.getD a 0) h)

/-- `MerkleTree.leafExists(leafIndex, leaf, path)`. -/
def leafExists (H : Nat → Nat → Nat) (t : Tree) (leafIndex leaf : Nat)
    (path : List Nat) : Except MTError Bool × Tree :=
  if leafIndex ≥ t.nextIndex then (.error .leafNotInserted, t)
  else (.ok (decide (t.root = climb H path t.depth 0 leafIndex leaf)), t)

/-- One iteration of the level loop of `update` (same case split as
`insert`, but the sibling is read from the supplied `path` and
`filledSubtrees` is not touched). -/
def updateStep (H : Nat → Nat → Nat) (path : List Nat) (i : Nat)
    (s : InsLoop) : InsLoop :=
  if s.curIdx % 2 = 0 then
    { curIdx := s.curIdx / 2
      cur := H s.cur (path.getD i 0)
      fs := s.fs
      fp := fun a b =>
        if a = i ∧ b = s.curIdx + 1 then some (path.getD i 0)
        else if a = i ∧ b = s.curIdx then some s.cur
        else s.fp a b }
  else
    { curIdx := s.curIdx / 2
      cur := H (path.getD i 0) s.cur
      fs := s.fs
      fp := fun a b =>
        if a = i ∧ b = s.curIdx then some s.cur
        else if a = i ∧ b = s.curIdx - 1 then some (path.getD i 0)
        else s.fp a b }

/-- `MerkleTree.update(leafIndex, leaf, path)`.  The guard is the call
`this.leafExists(leafIndex, this.leaves[leafIndex], path)` of the source;
it throws `LeafNotInserted` itself when `leafIndex >= nextIndex`. -/
def update (H : Nat → Nat → Nat) (t : Tree) (leafIndex leaf : Nat)
    (path : List Nat) : Except MTError Unit × Tree :=
  match (leafExists H t leafIndex (t.leaves.getD leafIndex 0) path).1 with
  | .error e => (.error e, t)
  | .ok false => (.error .proofMismatch, t)
  | .ok true =>
    let s := foldLevels (updateStep H path) 0 t.depth
      { curIdx := leafIndex, cur := leaf
        fs := t.filledSubtrees, fp := t.filledPaths }
    (.ok (), { t with
        filledPaths := s.fp
        root := s.cur
        leaves := t.leaves.set leafIndex leaf })

/-- Loop state of `getPathUpdate`. -/
structure PathLoop where
  curIdx : Nat
  path : List (Option Nat)
  leafIndexes : List (Nat × Nat)

/-- One iteration of the level loop of `getPathUpdate`. -/
def getPathStep (fp : Nat → Nat → Option Nat) (i : Nat)
    (s : PathLoop) : PathLoop :=
  if s.curIdx % 2 = 0 then
    { curIdx := s.curIdx / 2
      path := s.path ++ [fp i (s.curIdx + 1)]
      leafIndexes := s.leafIndexes ++ [(i, s.curIdx + 1)] }
  else
    { curIdx := s.curIdx / 2
      path := s.path ++ [fp i (s.curIdx - 1)]
      leafIndexes := s.leafIndexes ++ [(i, s.curIdx - 1)] }

/-- `MerkleTree.getPathUpdate(leafIndex)`.  Entries of the returned path
are `Option Nat`: reading an absent `filledPaths` key yields `undefined`
in JS, modelled as `none`. -/
def getPathUpdate (t : Tree) (leafIndex : Nat) :
    Except MTError (List (Option Nat) × List (Nat × Nat)) × Tree :=
  if leafIndex ≥ t.nextIndex then (.error .leafNotInserted, t)
  else
    let s := foldLevels (getPathStep t.filledPaths) 0 t.depth
      { curIdx := leafIndex, path := [], leafIndexes := [] }
    (.ok (s.path, s.leafIndexes), t)

/-- The digests of a path returned by `getPathUpdate`, as handed to
`leafExists` / `update` by a caller. -/
def pathValues (p : List (Option Nat)) : List Nat :=
  p.map fun o => o.getD 0

/-! ### Mathematical model: the Merkle tree of a padded leaf sequence -/

/-- Digest of the subtree at `(level, idx)` of the full binary tree of
the leaf list `L` padded with the zero value `z`. -/
def subHash (H : Nat → Nat → Nat) (z : Nat) (L : List Nat) :
    Nat → Nat → Nat
  | 0, idx => L.getD idx z
  | i + 1, idx =>
      H (subHash H z L i (2 * idx)) (subHash H z L i (2 * idx + 1))

/-- Sibling index at one level: `c+1` if `c` is even, `c-1` if odd. -/
def sibIdx (c : Nat) : Nat := if c % 2 = 0 then c + 1 else c - 1

/-- Largest even number `≤ c`. -/
def alignEven (c : Nat) : Nat := 2 * (c / 2)

/-! ### Reachable tree states -/

/-- Tree states reachable by construction (with positive depth) followed
by `insert` calls.  A failed `insert` returns the state unchanged, so
including it adds no states. -/
inductive ReachIns (H : Nat → Nat → Nat) : Tree → Prop where
  | init (depth z : Nat) (hd : 1 ≤ depth) : ReachIns H (mkTree H depth z)
  | ins {t : Tree} (leaf : Nat) :
      ReachIns H t → ReachIns H (insert H t leaf).2

/-- Tree states reachable by construction, then `insert` calls, then
`update` calls (no insert after an update). -/
inductive ReachUpd (H : Nat → Nat → Nat) : Tree → Prop where
  | ofIns {t : Tree} : ReachIns H t → ReachUpd H t
  | upd {t : Tree} (k v : Nat) (p : List Nat) :
      ReachUpd H t → ReachUpd H (update H t k v p).2

/-- Tree states reachable by construction and any interleaving of
`insert` and `update` calls. -/
inductive Reach (H : Nat → Nat → Nat) : Tree → Prop where
  | init (depth z : Nat) (hd : 1 ≤ depth) : Reach H (mkTree H depth z)
  | ins {t : Tree} (leaf : Nat) : Reach H t → Reach H (insert H t leaf).2
  | upd {t : Tree} (k v : Nat) (p : List Nat) :
      Reach H t → Reach H (update H t k v p).2

/-! ### Arithmetic and list helper lemmas -/

theorem div_pow_succ (n a : Nat) : n / 2 ^ a / 2 = n / 2 ^ (a + 1) := by
  rw [Nat.div_div_eq_div_mul, pow_succ]

theorem lt_succ_div_mul (n : Nat) (m : Nat) (hm : 0 < m) :
    n < (n / m + 1) * m :=
  (Nat.div_lt_iff_lt_mul hm).mp (Nat.lt_succ_self _)

theorem div_pow_lt {k d q : Nat} (hk : k < 2 ^ d) (hq : q ≤ d) :
    k / 2 ^ q < 2 ^ (d - q) := by
  rw [Nat.div_lt_iff_lt_mul (Nat.pos_pow_of_pos q (by norm_num)), ← pow_add]
  have : d - q + q = d := Nat.sub_add_cancel hq
  rw [this]
  exact hk

theorem sibIdx_lt {c m : Nat} (hc : c < 2 ^ m) (hm : 1 ≤ m) :
    sibIdx c < 2 ^ m := by
  unfold sibIdx
  rcases Nat.lt_or_ge c (2 ^ m - 1) with h | h
  · split
    · omega
    · omega
  · have hce : c = 2 ^ m - 1 := by omega
    have hmo : 2 ^ m % 2 = 0 := by
      have : 2 ^ m = 2 * 2 ^ (m - 1) := by
        rw [← pow_succ']
        congr 1
        omega
      omega
    split
    · omega
    · omega

theorem sibIdx_ne (c : Nat) : sibIdx c ≠ c := by
  unfold sibIdx
  split <;> omega

/-- `(n-1)/2^i` is `n/2^i` or one less, for `n ≥ 1`. -/
theorem pred_div_cases {n : Nat} (i : Nat) (_hn : 1 ≤ n) :
    (n - 1) / 2 ^ i = n / 2 ^ i ∨ (n - 1) / 2 ^ i + 1 = n / 2 ^ i := by
  have hpos : 0 < 2 ^ i := Nat.pos_pow_of_pos i (by norm_num)
  have hle : (n - 1) / 2 ^ i ≤ n / 2 ^ i :=
    Nat.div_le_div_right (Nat.sub_le n 1)
  have hmul : n / 2 ^ i * 2 ^ i ≤ n := Nat.div_mul_le_self n _
  rcases Nat.eq_zero_or_pos (n / 2 ^ i) with h0 | hcpos
  · left
    rw [h0] at hle ⊢
    exact Nat.le_zero.mp hle
  · have hlow : n / 2 ^ i - 1 ≤ (n - 1) / 2 ^ i := by
      rw [Nat.le_div_iff_mul_le hpos, Nat.sub_one_mul]
      calc n / 2 ^ i * 2 ^ i - 2 ^ i ≤ n - 2 ^ i :=
            Nat.sub_le_sub_right hmul _
        _ ≤ n - 1 := Nat.sub_le_sub_left hpos n
    have key : ∀ x y : Nat, y ≤ x → x - 1 ≤ y → 0 < x →
        (y = x ∨ y + 1 = x) := by
      intro x y h1 h2 h3
      omega
    exact key _ _ hle hlow hcpos

/-- When `n/2^i` is odd, the even alignment of `(n-1)/2^i` is `n/2^i - 1`. -/
theorem alignEven_pred {n i : Nat} (hodd : n / 2 ^ i % 2 = 1) :
    alignEven ((n - 1) / 2 ^ i) = n / 2 ^ i - 1 := by
  have hn : 1 ≤ n := by
    by_contra h
    have : n = 0 := by omega
    subst this
    simp [Nat.zero_div] at hodd
  rcases pred_div_cases i hn with h | h <;> unfold alignEven <;> omega

theorem getD_append_lt (L : List Nat) (x j d : Nat) (h : j < L.length) :
    (L ++ [x]).getD j d = L.getD j d := by
  rw [List.getD_append _ _ _ _ h]

theorem getD_append_len (L : List Nat) (x d : Nat) :
    (L ++ [x]).getD L.length d = x := by
  simp [List.getD]

theorem getD_append_gt (L : List Nat) (x j d : Nat) (h : L.length < j) :
    (L ++ [x]).getD j d = d := by
  apply List.getD_eq_default
  simp
  omega

theorem getD_set_ne (L : List Nat) (k v j d : Nat) (h : j ≠ k) :
    (L.set k v).getD j d = L.getD j d := by
  rw [List.getD_eq_getElem?_getD, List.getD_eq_getElem?_getD,
    List.getElem?_set_ne (Ne.symm h)]

theorem getD_set_self (L : List Nat) (k v d : Nat) (h : k < L.length) :
    (L.set k v).getD k d = v := by
  simp [List.getD, List.getElem?_set_self, h]

theorem getD_default_irrel (L : List Nat) (j d d' : Nat) (h : j < L.length) :
    L.getD j d = L.getD j d' := by
  rw [List.getD_eq_getElem?_getD, List.getD_eq_getElem?_getD,
    List.getElem?_eq_getElem h]
  rfl

theorem getD_range_map {α : Type} (f : Nat → α) (r q : Nat) (d : α)
    (h : q < r) : ((List.range r).map f).getD q d = f q := by
  rw [List.getD_eq_getElem?_getD]
  simp [List.getElem?_map, List.getElem?_range h]

/-! ### Basic facts about `subHash` -/

/-- An all-default subtree hashes to the zero digest of its level. -/
theorem subHash_of_out (H : Nat → Nat → Nat) (z : Nat) (L : List Nat) :
    ∀ i b, L.length ≤ b * 2 ^ i → subHash H z L i b = zerosFun H z i := by
  intro i
  induction i with
  | zero =>
    intro b hb
    simp only [subHash, zerosFun]
    apply List.getD_eq_default
    simpa using hb
  | succ i ih =>
    intro b hb
    have h1 : L.length ≤ 2 * b * 2 ^ i := by
      calc L.length ≤ b * 2 ^ (i + 1) := hb
        _ = 2 * b * 2 ^ i := by ring
    have h2 : L.length ≤ (2 * b + 1) * 2 ^ i := by
      have : 2 * b * 2 ^ i ≤ (2 * b + 1) * 2 ^ i :=
        Nat.mul_le_mul_right _ (by omega)
      omega
    simp only [subHash, zerosFun, ih (2 * b) h1, ih (2 * b + 1) h2]

/-- Appending a leaf at position `L.length` does not change subtrees that
do not contain that position. -/
theorem subHash_append (H : Nat → Nat → Nat) (z : Nat) (L : List Nat)
    (x : Nat) : ∀ i b, b ≠ L.length / 2 ^ i →
    subHash H z (L ++ [x]) i b = subHash H z L i b := by
  intro i
  induction i with
  | zero =>
    intro b hb
    simp only [pow_zero, Nat.div_one] at hb
    simp only [subHash]
    rcases Nat.lt_or_ge b L.length with h | h
    · exact getD_append_lt L x b z h
    · have hgt : L.length < b := by omega
      rw [getD_append_gt L x b z hgt]
      exact (List.getD_eq_default _ _ (by omega)).symm
  | succ i ih =>
    intro b hb
    have h1 : 2 * b ≠ L.length / 2 ^ i := by
      intro h
      apply hb
      have : L.length / 2 ^ i / 2 = b := by omega
      rw [← div_pow_succ, this]
    have h2 : 2 * b + 1 ≠ L.length / 2 ^ i := by
      intro h
      apply hb
      have : L.length / 2 ^ i / 2 = b := by omega
      rw [← div_pow_succ, this]
    simp only [subHash, ih (2 * b) h1, ih (2 * b + 1) h2]

/-- Overwriting leaf `k` does not change subtrees that do not contain
position `k`. -/
theorem subHash_set (H : Nat → Nat → Nat) (z : Nat) (L : List Nat)
    (k v : Nat) : ∀ i b, b ≠ k / 2 ^ i →
    subHash H z (L.set k v) i b = subHash H z L i b := by
  intro i
  induction i with
  | zero =>
    intro b hb
    simp only [pow_zero, Nat.div_one] at hb
    simp only [subHash]
    exact getD_set_ne L k v b z hb
  | succ i ih =>
    intro b hb
    have h1 : 2 * b ≠ k / 2 ^ i := by
      intro h
      apply hb
      have : k / 2 ^ i / 2 = b := by omega
      rw [← div_pow_succ, this]
    have h2 : 2 * b + 1 ≠ k / 2 ^ i := by
      intro h
      apply hb
      have : k / 2 ^ i / 2 = b := by omega
      rw [← div_pow_succ, this]
    simp only [subHash, ih (2 * b) h1, ih (2 * b + 1) h2]

/-- Combining the two children of an even-indexed node. -/
theorem subHash_combine_even (H : Nat → Nat → Nat) (z : Nat) (L : List Nat)
    (i c : Nat) (hc : c % 2 = 0) :
    H (subHash H z L i c) (subHash H z L i (c + 1)) =
      subHash H z L (i + 1) (c / 2) := by
  have h1 : 2 * (c / 2) = c := by omega
  have h2 : 2 * (c / 2) + 1 = c + 1 := by omega
  simp only [subHash, h1, h2]

/-- Combining the two children of an odd-indexed node. -/
theorem subHash_combine_odd (H : Nat → Nat → Nat) (z : Nat) (L : List Nat)
    (i c : Nat) (hc : c % 2 = 1) :
    H (subHash H z L i (c - 1)) (subHash H z L i c) =
      subHash H z L (i + 1) (c / 2) := by
  have h1 : 2 * (c / 2) = c - 1 := by omega
  have h2 : 2 * (c / 2) + 1 = c := by omega
  conv_rhs => rw [subHash]
  rw [h2, h1]

/-! ### The climb of `leafExists` against the mathematical tree -/

/-- Forward direction: climbing with the true sibling digests from the
true subtree digest reaches the true digest `r` levels up. -/
theorem climb_correct (H : Nat → Nat → Nat) (z : Nat) (L : List Nat)
    (p : List Nat) :
    ∀ r a c, (∀ q, q < r → p.getD (a + q) 0 =
      subHash H z L (a + q) (sibIdx (c / 2 ^ q))) →
    climb H p r a c (subHash H z L a c) =
      subHash H z L (a + r) (c / 2 ^ r) := by
  intro r
  induction r with
  | zero =>
    intro a c _
    simp [climb]
  | succ r ih =>
    intro a c hp
    have hp0 : p.getD a 0 = subHash H z L a (sibIdx c) := by
      have := hp 0 (by omega)
      simpa using this
    rw [climb]
    have hcomb : (if c % 2 = 0 then H (subHash H z L a c) (p.getD a 0)
        else H (p.getD a 0) (subHash H z L a c)) =
        subHash H z L (a + 1) (c / 2) := by
      rcases Nat.mod_two_eq_zero_or_one c with hc | hc
      · rw [if_pos hc, hp0]
        unfold sibIdx
        rw [if_pos hc]
        exact subHash_combine_even H z L a c hc
      · rw [if_neg (by omega), hp0]
        unfold sibIdx
        rw [if_neg (by omega)]
        exact subHash_combine_odd H z L a c hc
    rw [hcomb]
    have hrest : ∀ q, q < r → p.getD (a + 1 + q) 0 =
        subHash H z L (a + 1 + q) (sibIdx (c / 2 / 2 ^ q)) := by
      intro q hq
      have := hp (q + 1) (by omega)
      have harr : a + (q + 1) = a + 1 + q := by omega
      have hdiv : c / 2 ^ (q + 1) = c / 2 / 2 ^ q := by
        rw [Nat.div_div_eq_div_mul, pow_succ']
      rw [harr, hdiv] at this
      exact this
    have := ih (a + 1) (c / 2) hrest
    rw [this]
    congr 1
    · omega
    · rw [Nat.div_div_eq_div_mul, pow_succ']

/-- Backward direction: with an injective hash, a climb that reaches the
true digest `r` levels up must have started from the true subtree digest,
and every path entry it consumed must be the true sibling digest. -/
theorem climb_extract (H : Nat → Nat → Nat) (z : Nat) (L : List Nat)
    (p : List Nat) (hinj : Function.Injective2 H) :
    ∀ r a c h, climb H p r a c h = subHash H z L (a + r) (c / 2 ^ r) →
    h = subHash H z L a c ∧
      (∀ q, q < r → p.getD (a + q) 0 =
        subHash H z L (a + q) (sibIdx (c / 2 ^ q))) := by
  intro r
  induction r with
  | zero =>
    intro a c h hcl
    simp [climb] at hcl
    refine ⟨by simpa using hcl, ?_⟩
    intro q hq
    omega
  | succ r ih =>
    intro a c h hcl
    rw [climb] at hcl
    have harr : a + (r + 1) = a + 1 + r := by omega
    have hdiv : c / 2 ^ (r + 1) = c / 2 / 2 ^ r := by
      rw [Nat.div_div_eq_div_mul, pow_succ']
    rw [harr, hdiv] at hcl
    obtain ⟨hmid, hrest⟩ := ih (a + 1) (c / 2) _ hcl
    have hstep : h = subHash H z L a c ∧
        p.getD a 0 = subHash H z L a (sibIdx c) := by
      rcases Nat.mod_two_eq_zero_or_one c with hc | hc
      · rw [if_pos hc] at hmid
        rw [← subHash_combine_even H z L a c hc] at hmid
        obtain ⟨h1, h2⟩ := hinj hmid
        constructor
        · exact h1
        · unfold sibIdx
          rw [if_pos hc]
          exact h2
      · rw [if_neg (by omega)] at hmid
        rw [← subHash_combine_odd H z L a c hc] at hmid
        obtain ⟨h1, h2⟩ := hinj hmid
        constructor
        · exact h2
        · unfold sibIdx
          rw [if_neg (by omega)]
          exact h1
    refine ⟨hstep.1, ?_⟩
    intro q hq
    rcases Nat.eq_zero_or_pos q with hq0 | hqpos
    · subst hq0
      simpa using hstep.2
    · obtain ⟨q', rfl⟩ : ∃ q', q = q' + 1 := ⟨q - 1, by omega⟩
      have := hrest q' (by omega)
      have harr2 : a + 1 + q' = a + (q' + 1) := by omega
      have hdiv2 : c / 2 / 2 ^ q' = c / 2 ^ (q' + 1) := by
        rw [Nat.div_div_eq_div_mul, pow_succ']
      rw [harr2, hdiv2] at this
      exact this

/-! ### `foldLevels` and the closed form of `getPathUpdate` -/

theorem foldLevels_zero {σ : Type} (f : Nat → σ → σ) (a : Nat) (s : σ) :
    foldLevels f a 0 s = s := rfl

theorem foldLevels_succ {σ : Type} (f : Nat → σ → σ) (a r : Nat) (s : σ) :
    foldLevels f a (r + 1) s = foldLevels f (a + 1) r (f a s) := rfl

/-- Closed form of the level loop of `getPathUpdate`. -/
theorem getPathLoop (fp : Nat → Nat → Option Nat) :
    ∀ r a c pl il,
    foldLevels (getPathStep fp) a r ⟨c, pl, il⟩ =
      ⟨c / 2 ^ r,
       pl ++ (List.range r).map (fun q => fp (a + q) (sibIdx (c / 2 ^ q))),
       il ++ (List.range r).map (fun q => (a + q, sibIdx (c / 2 ^ q)))⟩ := by
  intro r
  induction r with
  | zero =>
    intro a c pl il
    simp [foldLevels]
  | succ r ih =>
    intro a c pl il
    rw [foldLevels_succ]
    have hstep : getPathStep fp a ⟨c, pl, il⟩ =
        ⟨c / 2, pl ++ [fp a (sibIdx c)], il ++ [(a, sibIdx c)]⟩ := by
      unfold getPathStep sibIdx
      rcases Nat.mod_two_eq_zero_or_one c with hc | hc
      · simp only [hc]
        rfl
      · simp only [hc]
        norm_num
    rw [hstep, ih]
    have hcur : c / 2 / 2 ^ r = c / 2 ^ (r + 1) := by
      rw [Nat.div_div_eq_div_mul, pow_succ']
    have hrange : ∀ {α : Type} (g : Nat → α),
        (List.range (r + 1)).map g =
          g 0 :: (List.range r).map (fun q => g (q + 1)) := by
      intro α g
      rw [List.range_succ_eq_map, List.map_cons, List.map_map]
      rfl
    simp only [PathLoop.mk.injEq]
    refine ⟨hcur, ?_, ?_⟩
    · rw [hrange (fun q => fp (a + q) (sibIdx (c / 2 ^ q)))]
      simp only [Nat.add_zero, pow_zero, Nat.div_one, List.append_assoc,
        List.singleton_append]
      congr 1
      congr 1
      apply List.map_congr_left
      intro q _
      have h1 : a + 1 + q = a + (q + 1) := by omega
      have h2 : c / 2 / 2 ^ q = c / 2 ^ (q + 1) := by
        rw [Nat.div_div_eq_div_mul, pow_succ']
      rw [h1, h2]
    · rw [hrange (fun q => (a + q, sibIdx (c / 2 ^ q)))]
      simp only [Nat.add_zero, pow_zero, Nat.div_one, List.append_assoc,
        List.singleton_append]
      congr 1
      congr 1
      apply List.map_congr_left
      intro q _
      have h1 : a + 1 + q = a + (q + 1) := by omega
      have h2 : c / 2 / 2 ^ q = c / 2 ^ (q + 1) := by
        rw [Nat.div_div_eq_div_mul, pow_succ']
      rw [h1, h2]

theorem alignEven_of_even {c : Nat} (h : c % 2 = 0) : alignEven c = c := by
  unfold alignEven
  omega

theorem alignEven_of_odd {c : Nat} (h : c % 2 = 1) : alignEven c = c - 1 := by
  unfold alignEven
  omega

theorem sibIdx_of_even {c : Nat} (h : c % 2 = 0) : sibIdx c = c + 1 := by
  unfold sibIdx
  rw [if_pos h]

theorem sibIdx_of_odd {c : Nat} (h : c % 2 = 1) : sibIdx c = c - 1 := by
  unfold sibIdx
  rw [if_neg (by omega)]

/-! ### The level-loop invariant of `insert` -/

/-- Invariant holding after the first `a` iterations of the level loop of
`insert`, where `L` is the leaf list before the call, `l` the inserted
leaf, and `fs0` / `fp0` the dictionaries before the call. -/
def InsMid (H : Nat → Nat → Nat) (z : Nat) (L : List Nat) (l : Nat)
    (fs0 : Nat → Nat) (fp0 : Nat → Nat → Option Nat) (a : Nat)
    (s : InsLoop) : Prop :=
  s.curIdx = L.length / 2 ^ a ∧
  s.cur = subHash H z (L ++ [l]) a (L.length / 2 ^ a) ∧
  (∀ j, a ≤ j → s.fs j = fs0 j) ∧
  (∀ j, j < a →
    s.fs j = subHash H z (L ++ [l]) j (alignEven (L.length / 2 ^ j))) ∧
  (∀ i j, a ≤ i → s.fp i j = fp0 i j) ∧
  (∀ i j v, i < a → s.fp i j = some v →
    v = subHash H z (L ++ [l]) i j) ∧
  (∀ i j, (fp0 i j).isSome = true → (s.fp i j).isSome = true) ∧
  (∀ i, i < a → (s.fp i (L.length / 2 ^ i)).isSome = true ∧
    (s.fp i (sibIdx (L.length / 2 ^ i))).isSome = true)

/-- `x - 1 ≠ x` for positive `x`. -/
theorem pred_ne_of_pos {x : Nat} (hx : 1 ≤ x) : x - 1 ≠ x := by
  omega

/-- One loop iteration of `insert` preserves the invariant. -/
theorem insMid_step (H : Nat → Nat → Nat) (z : Nat) (L : List Nat)
    (l : Nat) (fs0 : Nat → Nat) (fp0 : Nat → Nat → Option Nat)
    (zeros : Nat → Nat) (d a : Nat) (s : InsLoop)
    (Hz : ∀ i, zeros i = zerosFun H z i)
    (Hfs0 : ∀ j, j < d → 1 ≤ L.length →
      fs0 j = subHash H z L j (alignEven ((L.length - 1) / 2 ^ j)))
    (Hfp0 : ∀ i j v, fp0 i j = some v → v = subHash H z L i j)
    (ha : a < d)
    (hmid : InsMid H z L l fs0 fp0 a s) :
    InsMid H z L l fs0 fp0 (a + 1) (insertStep H zeros a s) := by
  obtain ⟨hc, hcur, hfsHi, hfsLo, hfpHi, hfpLo, hpres, hnew⟩ := hmid
  have hpow : 0 < 2 ^ a := Nat.pos_pow_of_pos a (by norm_num)
  have hdivsucc : L.length / 2 ^ a / 2 = L.length / 2 ^ (a + 1) :=
    div_pow_succ L.length a
  rcases Nat.mod_two_eq_zero_or_one s.curIdx with hpar | hpar
  · -- even cursor: left child, right sibling is the zero subtree
    rw [hc] at hpar
    have hzs : zeros a =
        subHash H z (L ++ [l]) a (L.length / 2 ^ a + 1) := by
      rw [Hz]
      symm
      apply subHash_of_out
      have hlt : L.length < (L.length / 2 ^ a + 1) * 2 ^ a :=
        lt_succ_div_mul L.length (2 ^ a) hpow
      simp only [List.length_append, List.length_singleton]
      exact hlt
    unfold insertStep
    rw [hc, if_pos hpar]
    refine ⟨?_, ?_, ?_, ?_, ?_, ?_, ?_, ?_⟩
    · exact hdivsucc
    · dsimp only
      rw [hcur, hzs, subHash_combine_even H z (L ++ [l]) a _ hpar,
        hdivsucc]
    · intro j hj
      dsimp only
      rw [if_neg (by omega)]
      exact hfsHi j (by omega)
    · intro j hj
      dsimp only
      rcases Nat.lt_or_ge j a with hja | hja
      · rw [if_neg (by omega)]
        exact hfsLo j hja
      · have hj' : j = a := by omega
        subst hj'
        rw [if_pos rfl, hcur, alignEven_of_even hpar]
    · intro i j hi
      dsimp only
      rw [if_neg (fun h => absurd h.1 (by omega)),
        if_neg (fun h => absurd h.1 (by omega))]
      exact hfpHi i j (by omega)
    · intro i j v hi hv
      dsimp only at hv
      rcases Nat.lt_or_ge i a with hia | hia
      · rw [if_neg (fun h => absurd h.1 (by omega)),
          if_neg (fun h => absurd h.1 (by omega))] at hv
        exact hfpLo i j v hia hv
      · have hi' : i = a := by omega
        subst hi'
        by_cases hj1 : j = L.length / 2 ^ i + 1
        · rw [if_pos ⟨rfl, hj1⟩] at hv
          have hv2 : v = zeros i := by
            injection hv with hv1
            exact hv1.symm
          rw [hv2, hzs, hj1]
        · by_cases hj2 : j = L.length / 2 ^ i
          · rw [if_neg (by tauto), if_pos ⟨rfl, hj2⟩] at hv
            have hv2 : v = s.cur := by
              injection hv with hv1
              exact hv1.symm
            rw [hv2, hcur, hj2]
          · rw [if_neg (by tauto), if_neg (by tauto)] at hv
            have hold : v = subHash H z L i j :=
              Hfp0 i j v (hfpHi i j (Nat.le_refl i) ▸ hv)
            rw [hold]
            exact (subHash_append H z L l i j hj2).symm
    · intro i j hs
      dsimp only
      split
      · rfl
      · split
        · rfl
        · exact hpres i j hs
    · intro i hi
      rcases Nat.lt_or_ge i a with hia | hia
      · obtain ⟨h1, h2⟩ := hnew i hia
        constructor
        · dsimp only
          rw [if_neg (fun h => absurd h.1 (by omega)),
            if_neg (fun h => absurd h.1 (by omega))]
          exact h1
        · dsimp only
          rw [if_neg (fun h => absurd h.1 (by omega)),
            if_neg (fun h => absurd h.1 (by omega))]
          exact h2
      · have hi' : i = a := by omega
        subst hi'
        constructor
        · dsimp only
          rw [if_neg (fun h => Nat.succ_ne_self _ h.2.symm),
            if_pos ⟨rfl, rfl⟩]
          rfl
        · rw [sibIdx_of_even hpar]
          dsimp only
          rw [if_pos ⟨rfl, rfl⟩]
          rfl
  · -- odd cursor: right child, left sibling is the filled subtree
    rw [hc] at hpar
    have hcpos : 1 ≤ L.length / 2 ^ a := by
      rcases Nat.eq_zero_or_pos (L.length / 2 ^ a) with h0 | h1
      · rw [h0] at hpar
        simp at hpar
      · exact h1
    have hn1 : 1 ≤ L.length := by
      rcases Nat.eq_zero_or_pos L.length with h0 | h1
      · rw [h0, Nat.zero_div] at hcpos
        omega
      · exact h1
    have hfsa : s.fs a =
        subHash H z (L ++ [l]) a (L.length / 2 ^ a - 1) := by
      rw [hfsHi a (Nat.le_refl a), Hfs0 a ha hn1, alignEven_pred hpar]
      exact (subHash_append H z L l a _ (pred_ne_of_pos hcpos)).symm
    unfold insertStep
    rw [hc, if_neg (by omega)]
    refine ⟨?_, ?_, ?_, ?_, ?_, ?_, ?_, ?_⟩
    · exact hdivsucc
    · dsimp only
      rw [hcur, hfsa, subHash_combine_odd H z (L ++ [l]) a _ hpar,
        hdivsucc]
    · intro j hj
      exact hfsHi j (by omega)
    · intro j hj
      rcases Nat.lt_or_ge j a with hja | hja
      · exact hfsLo j hja
      · have hj' : j = a := by omega
        subst hj'
        rw [alignEven_of_odd hpar]
        exact hfsa
    · intro i j hi
      dsimp only
      rw [if_neg (fun h => absurd h.1 (by omega)),
        if_neg (fun h => absurd h.1 (by omega))]
      exact hfpHi i j (by omega)
    · intro i j v hi hv
      dsimp only at hv
      rcases Nat.lt_or_ge i a with hia | hia
      · rw [if_neg (fun h => absurd h.1 (by omega)),
          if_neg (fun h => absurd h.1 (by omega))] at hv
        exact hfpLo i j v hia hv
      · have hi' : i = a := by omega
        subst hi'
        by_cases hj1 : j = L.length / 2 ^ i
        · rw [if_pos ⟨rfl, hj1⟩] at hv
          have hv2 : v = s.cur := by
            injection hv with hv1
            exact hv1.symm
          rw [hv2, hcur, hj1]
        · by_cases hj2 : j = L.length / 2 ^ i - 1
          · rw [if_neg (by tauto), if_pos ⟨rfl, hj2⟩] at hv
            have hv2 : v = s.fs i := by
              injection hv with hv1
              exact hv1.symm
            rw [hv2, hfsa, hj2]
          · rw [if_neg (by tauto), if_neg (by tauto)] at hv
            have hold : v = subHash H z L i j :=
              Hfp0 i j v (hfpHi i j (Nat.le_refl i) ▸ hv)
            rw [hold]
            exact (subHash_append H z L l i j hj1).symm
    · intro i j hs
      dsimp only
      split
      · rfl
      · split
        · rfl
        · exact hpres i j hs
    · intro i hi
      rcases Nat.lt_or_ge i a with hia | hia
      · obtain ⟨h1, h2⟩ := hnew i hia
        constructor
        · dsimp only
          rw [if_neg (fun h => absurd h.1 (by omega)),
            if_neg (fun h => absurd h.1 (by omega))]
          exact h1
        · dsimp only
          rw [if_neg (fun h => absurd h.1 (by omega)),
            if_neg (fun h => absurd h.1 (by omega))]
          exact h2
      · have hi' : i = a := by omega
        subst hi'
        constructor
        · dsimp only
          rw [if_pos ⟨rfl, rfl⟩]
          rfl
        · rw [sibIdx_of_odd hpar]
          dsimp only
          rw [if_neg (fun h => pred_ne_of_pos hcpos h.2),
            if_pos ⟨rfl, rfl⟩]
          rfl

/-- The level loop of `insert` carries the invariant to the end. -/
theorem insMid_fold (H : Nat → Nat → Nat) (z : Nat) (L : List Nat)
    (l : Nat) (fs0 : Nat → Nat) (fp0 : Nat → Nat → Option Nat)
    (zeros : Nat → Nat) (d : Nat)
    (Hz : ∀ i, zeros i = zerosFun H z i)
    (Hfs0 : ∀ j, j < d → 1 ≤ L.length →
      fs0 j = subHash H z L j (alignEven ((L.length - 1) / 2 ^ j)))
    (Hfp0 : ∀ i j v, fp0 i j = some v → v = subHash H z L i j) :
    ∀ r a s, a + r ≤ d → InsMid H z L l fs0 fp0 a s →
    InsMid H z L l fs0 fp0 (a + r)
      (foldLevels (insertStep H zeros) a r s) := by
  intro r
  induction r with
  | zero =>
    intro a s _ hmid
    exact hmid
  | succ r ih =>
    intro a s hle hmid
    rw [foldLevels_succ]
    have hstep := insMid_step H z L l fs0 fp0 zeros d a s Hz Hfs0 Hfp0
      (by omega) hmid
    have := ih (a + 1) (insertStep H zeros a s) (by omega) hstep
    have harr : a + (r + 1) = a + 1 + r := by omega
    rw [harr]
    exact this

/-! ### The state invariants -/

/-- Invariant of every tree state reachable by construction, `insert`
calls, and verified `update` calls: the bookkeeping fields are
consistent, `root` is the Merkle root of the current leaves padded with
the zero value, and every recorded `filledPaths` entry is the true digest
of its subtree. -/
structure InvUpd (H : Nat → Nat → Nat) (t : Tree) : Prop where
  depth_pos : 1 ≤ t.depth
  leafNumber_eq : t.leafNumber = 2 ^ t.depth
  next_eq : t.nextIndex = t.leaves.length
  count_le : t.leaves.length ≤ 2 ^ t.depth
  zeros_eq : ∀ i, t.zeros i = zerosFun H t.zeroValue i
  root_eq : t.root = subHash H t.zeroValue t.leaves t.depth 0
  fp_correct : ∀ i j v, t.filledPaths i j = some v →
    v = subHash H t.zeroValue t.leaves i j
  fp_high : ∀ i j, t.depth ≤ i → t.filledPaths i j = none
  fp_present_hi : ∀ i j, 1 ≤ i → i < t.depth → j < 2 ^ (t.depth - i) →
    (t.filledPaths i j).isSome = true
  fp_present_lo : ∀ j, j < t.leaves.length →
    (t.filledPaths 0 j).isSome = true ∧
    (t.filledPaths 0 (sibIdx j)).isSome = true

/-- Invariant of tree states reachable by construction and `insert`
calls only: additionally, `filledSubtrees[i]` is the digest of the even
subtree at level `i` containing or preceding the last inserted leaf.
(`update` does not maintain this field, so it is not part of
`InvUpd`.) -/
structure InvIns (H : Nat → Nat → Nat) (t : Tree)
    extends InvUpd H t : Prop where
  fs_eq : ∀ i, i < t.depth → 1 ≤ t.leaves.length →
    t.filledSubtrees i =
      subHash H t.zeroValue t.leaves i
        (alignEven ((t.leaves.length - 1) / 2 ^ i))

/-- The constructor establishes the insert-phase invariant. -/
theorem mkTree_inv (H : Nat → Nat → Nat) (d z : Nat) (hd : 1 ≤ d) :
    InvIns H (mkTree H d z) := by
  have hzsub : ∀ i b, subHash H z ([] : List Nat) i b = zerosFun H z i :=
    fun i b => subHash_of_out H z [] i b (by simp)
  have hinit : ∀ i j v, initFilledPaths H z d i j = some v →
      v = zerosFun H z i := by
    intro i j v hv
    unfold initFilledPaths at hv
    split at hv
    · rename_i hcond
      injection hv with hv1
      rw [← hv1]
      by_cases hi1 : i = 1
      · rw [if_pos hi1, hi1]
        rfl
      · rw [if_neg hi1]
        obtain ⟨h1, _, _⟩ := hcond
        have h2 : i - 1 + 1 = i := by omega
        conv_rhs => rw [← h2]
        rfl
    · exact absurd hv (by simp)
  refine ⟨⟨hd, rfl, rfl, by simp [mkTree], fun i => rfl, ?_, ?_, ?_, ?_,
    ?_⟩, ?_⟩
  · show H (zerosFun H z (d - 1)) (zerosFun H z (d - 1)) =
      subHash H z [] d 0
    rw [hzsub d 0]
    have h2 : d - 1 + 1 = d := by omega
    conv_rhs => rw [← h2]
    rfl
  · intro i j v hv
    have hv' : initFilledPaths H z d i j = some v := hv
    show v = subHash H z [] i j
    rw [hzsub i j]
    exact hinit i j v hv'
  · intro i j hi
    have hi' : d ≤ i := hi
    show initFilledPaths H z d i j = none
    unfold initFilledPaths
    rw [if_neg (by omega)]
  · intro i j h1 h2 h3
    have h2' : i < d := h2
    have h3' : j < 2 ^ (d - i) := h3
    show (initFilledPaths H z d i j).isSome = true
    unfold initFilledPaths
    rw [if_pos ⟨h1, h2', h3'⟩]
    rfl
  · intro j hj
    simp [mkTree] at hj
  · intro i _ h1
    simp [mkTree] at h1

/-- A successful `insert` preserves the insert-phase invariant; a failed
one returns the tree unchanged, so `insert` preserves it outright. -/
theorem insert_inv (H : Nat → Nat → Nat) (t : Tree) (leaf : Nat)
    (hinv : InvIns H t) : InvIns H (insert H t leaf).2 := by
  obtain ⟨⟨hd, hleafNum, hnext, hcount, hzeros, hroot, hfpc, hfph, hfpHi,
    hfpLo⟩, hfs⟩ := hinv
  unfold insert
  by_cases hfull : t.nextIndex + 1 > t.leafNumber
  · rw [if_pos hfull]
    exact ⟨⟨hd, hleafNum, hnext, hcount, hzeros, hroot, hfpc, hfph,
      hfpHi, hfpLo⟩, hfs⟩
  · rw [if_neg hfull]
    have hlen : t.leaves.length < 2 ^ t.depth := by
      rw [hleafNum] at hfull
      omega
    have hinit : InsMid H t.zeroValue t.leaves leaf t.filledSubtrees
        t.filledPaths 0 ⟨t.nextIndex, leaf, t.filledSubtrees,
          t.filledPaths⟩ := by
      refine ⟨?_, ?_, fun j _ => rfl, ?_, fun i j _ => rfl, ?_,
        fun i j h => h, ?_⟩
      · simpa using hnext
      · show leaf = subHash H t.zeroValue (t.leaves ++ [leaf]) 0
          (t.leaves.length / 2 ^ 0)
        simp only [pow_zero, Nat.div_one, subHash]
        exact (getD_append_len t.leaves leaf t.zeroValue).symm
      · intro j hj
        omega
      · intro i j v hi
        omega
      · intro i hi
        omega
    have hfold := insMid_fold H t.zeroValue t.leaves leaf
      t.filledSubtrees t.filledPaths t.zeros t.depth hzeros hfs hfpc
      t.depth 0 _ (by omega) hinit
    rw [Nat.zero_add] at hfold
    obtain ⟨hc, hcur, hfsHi2, hfsLo2, hfpHi2, hfpLo2, hpres2, hnew2⟩ :=
      hfold
    have hdiv0 : t.leaves.length / 2 ^ t.depth = 0 :=
      Nat.div_eq_of_lt hlen
    constructor
    constructor
    · exact hd
    · exact hleafNum
    · show t.nextIndex + 1 = (t.leaves ++ [leaf]).length
      simp [hnext]
    · show (t.leaves ++ [leaf]).length ≤ 2 ^ t.depth
      simp only [List.length_append, List.length_singleton]
      omega
    · exact hzeros
    · show (foldLevels (insertStep H t.zeros) 0 t.depth
        { curIdx := t.nextIndex, cur := leaf, fs := t.filledSubtrees,
          fp := t.filledPaths }).cur =
        subHash H t.zeroValue (t.leaves ++ [leaf]) t.depth 0
      rw [hcur, hdiv0]
    · intro i j v hv
      replace hv : (foldLevels (insertStep H t.zeros) 0 t.depth
        { curIdx := t.nextIndex, cur := leaf, fs := t.filledSubtrees,
          fp := t.filledPaths }).fp i j = some v := hv
      rcases Nat.lt_or_ge i t.depth with hi | hi
      · exact hfpLo2 i j v hi hv
      · rw [hfpHi2 i j hi, hfph i j hi] at hv
        exact absurd hv (by simp)
    · intro i j hi
      show (foldLevels (insertStep H t.zeros) 0 t.depth
        { curIdx := t.nextIndex, cur := leaf, fs := t.filledSubtrees,
          fp := t.filledPaths }).fp i j = none
      rw [hfpHi2 i j hi]
      exact hfph i j hi
    · intro i j h1 h2 h3
      have := hfpHi i j h1 h2 h3
      exact hpres2 i j this
    · intro j hj
      simp only [List.length_append, List.length_singleton] at hj
      rcases Nat.lt_or_ge j t.leaves.length with hjl | hjl
      · obtain ⟨p1, p2⟩ := hfpLo j hjl
        exact ⟨hpres2 0 j p1, hpres2 0 (sibIdx j) p2⟩
      · have hj' : j = t.leaves.length := by omega
        subst hj'
        have := hnew2 0 hd
        simpa using this
    · intro i hi _
      show (foldLevels (insertStep H t.zeros) 0 t.depth _).fs i = _
      rw [hfsLo2 i hi]
      congr 1
      simp

/-- Every insert-phase reachable tree satisfies the insert invariant. -/
theorem reachIns_inv (H : Nat → Nat → Nat) {t : Tree}
    (h : ReachIns H t) : InvIns H t := by
  induction h with
  | init d z hd => exact mkTree_inv H d z hd
  | ins leaf _ ih => exact insert_inv H _ leaf ih

/-! ### Case analysis of `leafExists`, `update` and `insert` -/

theorem leafExists_fst (H : Nat → Nat → Nat) (t : Tree)
    (k leaf : Nat) (p : List Nat) :
    (leafExists H t k leaf p).1 =
      if k ≥ t.nextIndex then .error .leafNotInserted
      else .ok (decide (t.root = climb H p t.depth 0 k leaf)) := by
  unfold leafExists
  split
  · rfl
  · rfl

theorem leafExists_snd (H : Nat → Nat → Nat) (t : Tree)
    (k leaf : Nat) (p : List Nat) : (leafExists H t k leaf p).2 = t := by
  unfold leafExists
  split
  · rfl
  · rfl

theorem getPathUpdate_snd (t : Tree) (k : Nat) :
    (getPathUpdate t k).2 = t := by
  unfold getPathUpdate
  split
  · rfl
  · rfl

theorem update_of_notInserted (H : Nat → Nat → Nat) (t : Tree)
    (k v : Nat) (p : List Nat) (hk : k ≥ t.nextIndex) :
    update H t k v p = (.error .leafNotInserted, t) := by
  unfold update
  rw [leafExists_fst, if_pos hk]

theorem update_of_mismatch (H : Nat → Nat → Nat) (t : Tree)
    (k v : Nat) (p : List Nat) (hk : ¬ k ≥ t.nextIndex)
    (hne : ¬ t.root = climb H p t.depth 0 k (t.leaves.getD k 0)) :
    update H t k v p = (.error .proofMismatch, t) := by
  unfold update
  rw [leafExists_fst, if_neg hk, decide_eq_false hne]

theorem update_of_verified (H : Nat → Nat → Nat) (t : Tree)
    (k v : Nat) (p : List Nat) (hk : ¬ k ≥ t.nextIndex)
    (heq : t.root = climb H p t.depth 0 k (t.leaves.getD k 0)) :
    update H t k v p = (.ok (), { t with
      filledPaths := (foldLevels (updateStep H p) 0 t.depth
        { curIdx := k, cur := v, fs := t.filledSubtrees,
          fp := t.filledPaths }).fp
      root := (foldLevels (updateStep H p) 0 t.depth
        { curIdx := k, cur := v, fs := t.filledSubtrees,
          fp := t.filledPaths }).cur
      leaves := t.leaves.set k v }) := by
  unfold update
  rw [leafExists_fst, if_neg hk, decide_eq_true heq]

theorem insert_of_full (H : Nat → Nat → Nat) (t : Tree) (leaf : Nat)
    (hfull : t.nextIndex + 1 > t.leafNumber) :
    insert H t leaf = (.error .capacityExceeded, t) := by
  unfold insert
  rw [if_pos hfull]

theorem insert_of_space (H : Nat → Nat → Nat) (t : Tree) (leaf : Nat)
    (hfull : ¬ t.nextIndex + 1 > t.leafNumber) :
    insert H t leaf = (.ok (), { t with
      nextIndex := t.nextIndex + 1
      filledSubtrees := (foldLevels (insertStep H t.zeros) 0 t.depth
        { curIdx := t.nextIndex, cur := leaf, fs := t.filledSubtrees,
          fp := t.filledPaths }).fs
      filledPaths := (foldLevels (insertStep H t.zeros) 0 t.depth
        { curIdx := t.nextIndex, cur := leaf, fs := t.filledSubtrees,
          fp := t.filledPaths }).fp
      root := (foldLevels (insertStep H t.zeros) 0 t.depth
        { curIdx := t.nextIndex, cur := leaf, fs := t.filledSubtrees,
          fp := t.filledPaths }).cur
      leaves := t.leaves ++ [leaf] }) := by
  unfold insert
  rw [if_neg hfull]

/-- Bookkeeping invariant that survives arbitrary interleavings of
`insert` and `update`. -/
theorem reach_basic (H : Nat → Nat → Nat) {t : Tree} (h : Reach H t) :
    t.leafNumber = 2 ^ t.depth ∧ t.nextIndex = t.leaves.length ∧
      t.leaves.length ≤ 2 ^ t.depth := by
  induction h with
  | init d z hd =>
    exact ⟨rfl, rfl, by simp [mkTree]⟩
  | ins leaf _ ih =>
    obtain ⟨h1, h2, h3⟩ := ih
    rename_i t' _
    by_cases hfull : t'.nextIndex + 1 > t'.leafNumber
    · rw [insert_of_full H t' leaf hfull]
      exact ⟨h1, h2, h3⟩
    · rw [insert_of_space H t' leaf hfull]
      refine ⟨h1, ?_, ?_⟩
      · show t'.nextIndex + 1 = (t'.leaves ++ [leaf]).length
        simp [h2]
      · show (t'.leaves ++ [leaf]).length ≤ 2 ^ t'.depth
        simp only [List.length_append, List.length_singleton]
        rw [h1] at hfull
        omega
  | upd k v p _ ih =>
    obtain ⟨h1, h2, h3⟩ := ih
    rename_i t' _
    by_cases hk : k ≥ t'.nextIndex
    · rw [update_of_notInserted H t' k v p hk]
      exact ⟨h1, h2, h3⟩
    · by_cases hroot : t'.root = climb H p t'.depth 0 k
        (t'.leaves.getD k 0)
      · rw [update_of_verified H t' k v p hk hroot]
        refine ⟨h1, ?_, ?_⟩
        · show t'.nextIndex = (t'.leaves.set k v).length
          rw [List.length_set]
          exact h2
        · show (t'.leaves.set k v).length ≤ 2 ^ t'.depth
          rw [List.length_set]
          exact h3
      · rw [update_of_mismatch H t' k v p hk hroot]
        exact ⟨h1, h2, h3⟩

/-! ### The level-loop invariant of `update` -/

/-- Invariant after the first `a` iterations of the level loop of
`update`: `L` the leaf list before the call, `k` the updated index,
`v` the new leaf, `fp0` the `filledPaths` before the call. -/
def UpdMid (H : Nat → Nat → Nat) (z : Nat) (L : List Nat) (k v : Nat)
    (fp0 : Nat → Nat → Option Nat) (a : Nat) (s : InsLoop) : Prop :=
  s.curIdx = k / 2 ^ a ∧
  s.cur = subHash H z (L.set k v) a (k / 2 ^ a) ∧
  (∀ i j, a ≤ i → s.fp i j = fp0 i j) ∧
  (∀ i j w, i < a → s.fp i j = some w →
    w = subHash H z (L.set k v) i j) ∧
  (∀ i j, (fp0 i j).isSome = true → (s.fp i j).isSome = true)

/-- One loop iteration of `update` preserves the invariant, given that
the supplied path holds the true sibling digests. -/
theorem updMid_step (H : Nat → Nat → Nat) (z : Nat) (L : List Nat)
    (k v : Nat) (p : List Nat) (fp0 : Nat → Nat → Option Nat)
    (d a : Nat) (s : InsLoop)
    (hk : k < L.length)
    (Hpath : ∀ q, q < d → p.getD q 0 =
      subHash H z L q (sibIdx (k / 2 ^ q)))
    (Hfp0 : ∀ i j w, fp0 i j = some w → w = subHash H z L i j)
    (ha : a < d)
    (hmid : UpdMid H z L k v fp0 a s) :
    UpdMid H z L k v fp0 (a + 1) (updateStep H p a s) := by
  obtain ⟨hc, hcur, hfpHi, hfpLo, hpres⟩ := hmid
  have hdivsucc : k / 2 ^ a / 2 = k / 2 ^ (a + 1) := div_pow_succ k a
  have hsib : p.getD a 0 =
      subHash H z (L.set k v) a (sibIdx (k / 2 ^ a)) := by
    rw [Hpath a ha]
    exact (subHash_set H z L k v a _ (sibIdx_ne (k / 2 ^ a))).symm
  rcases Nat.mod_two_eq_zero_or_one s.curIdx with hpar | hpar
  · rw [hc] at hpar
    have hsib' : p.getD a 0 =
        subHash H z (L.set k v) a (k / 2 ^ a + 1) := by
      rw [hsib, sibIdx_of_even hpar]
    unfold updateStep
    rw [hc, if_pos hpar]
    refine ⟨?_, ?_, ?_, ?_, ?_⟩
    · exact hdivsucc
    · dsimp only
      rw [hcur, hsib', subHash_combine_even H z (L.set k v) a _ hpar,
        hdivsucc]
    · intro i j hi
      dsimp only
      rw [if_neg (fun h => absurd h.1 (by omega)),
        if_neg (fun h => absurd h.1 (by omega))]
      exact hfpHi i j (by omega)
    · intro i j w hi hv
      dsimp only at hv
      rcases Nat.lt_or_ge i a with hia | hia
      · rw [if_neg (fun h => absurd h.1 (by omega)),
          if_neg (fun h => absurd h.1 (by omega))] at hv
        exact hfpLo i j w hia hv
      · have hi' : i = a := by omega
        subst hi'
        by_cases hj1 : j = k / 2 ^ i + 1
        · rw [if_pos ⟨rfl, hj1⟩] at hv
          injection hv with hv1
          rw [← hv1, hsib', hj1]
        · by_cases hj2 : j = k / 2 ^ i
          · rw [if_neg (by tauto), if_pos ⟨rfl, hj2⟩] at hv
            injection hv with hv1
            rw [← hv1, hcur, hj2]
          · rw [if_neg (by tauto), if_neg (by tauto)] at hv
            have hold : w = subHash H z L i j :=
              Hfp0 i j w (hfpHi i j (Nat.le_refl i) ▸ hv)
            rw [hold]
            exact (subHash_set H z L k v i j hj2).symm
    · intro i j hs
      dsimp only
      split
      · rfl
      · split
        · rfl
        · exact hpres i j hs
  · rw [hc] at hpar
    have hcpos : 1 ≤ k / 2 ^ a := by
      rcases Nat.eq_zero_or_pos (k / 2 ^ a) with h0 | h1
      · rw [h0] at hpar
        simp at hpar
      · exact h1
    have hsib' : p.getD a 0 =
        subHash H z (L.set k v) a (k / 2 ^ a - 1) := by
      rw [hsib, sibIdx_of_odd hpar]
    unfold updateStep
    rw [hc, if_neg (by omega)]
    refine ⟨?_, ?_, ?_, ?_, ?_⟩
    · exact hdivsucc
    · dsimp only
      rw [hcur, hsib', subHash_combine_odd H z (L.set k v) a _ hpar,
        hdivsucc]
    · intro i j hi
      dsimp only
      rw [if_neg (fun h => absurd h.1 (by omega)),
        if_neg (fun h => absurd h.1 (by omega))]
      exact hfpHi i j (by omega)
    · intro i j w hi hv
      dsimp only at hv
      rcases Nat.lt_or_ge i a with hia | hia
      · rw [if_neg (fun h => absurd h.1 (by omega)),
          if_neg (fun h => absurd h.1 (by omega))] at hv
        exact hfpLo i j w hia hv
      · have hi' : i = a := by omega
        subst hi'
        by_cases hj1 : j = k / 2 ^ i
        · rw [if_pos ⟨rfl, hj1⟩] at hv
          injection hv with hv1
          rw [← hv1, hcur, hj1]
        · by_cases hj2 : j = k / 2 ^ i - 1
          · rw [if_neg (by tauto), if_pos ⟨rfl, hj2⟩] at hv
            injection hv with hv1
            rw [← hv1, hsib', hj2]
          · rw [if_neg (by tauto), if_neg (by tauto)] at hv
            have hold : w = subHash H z L i j :=
              Hfp0 i j w (hfpHi i j (Nat.le_refl i) ▸ hv)
            rw [hold]
            exact (subHash_set H z L k v i j hj1).symm
    · intro i j hs
      dsimp only
      split
      · rfl
      · split
        · rfl
        · exact hpres i j hs

/-- The level loop of `update` carries the invariant to the end. -/
theorem updMid_fold (H : Nat → Nat → Nat) (z : Nat) (L : List Nat)
    (k v : Nat) (p : List Nat) (fp0 : Nat → Nat → Option Nat) (d : Nat)
    (hk : k < L.length)
    (Hpath : ∀ q, q < d → p.getD q 0 =
      subHash H z L q (sibIdx (k / 2 ^ q)))
    (Hfp0 : ∀ i j w, fp0 i j = some w → w = subHash H z L i j) :
    ∀ r a s, a + r ≤ d → UpdMid H z L k v fp0 a s →
    UpdMid H z L k v fp0 (a + r)
      (foldLevels (updateStep H p) a r s) := by
  intro r
  induction r with
  | zero =>
    intro a s _ hmid
    exact hmid
  | succ r ih =>
    intro a s hle hmid
    rw [foldLevels_succ]
    have hstep := updMid_step H z L k v p fp0 d a s hk Hpath Hfp0
      (by omega) hmid
    have := ih (a + 1) (updateStep H p a s) (by omega) hstep
    have harr : a + (r + 1) = a + 1 + r := by omega
    rw [harr]
    exact this

/-- A verified `update` preserves the invariant `InvUpd`, for an
injective hash. -/
theorem update_inv (H : Nat → Nat → Nat)
    (hinj : Function.Injective2 H) (t : Tree) (k v : Nat)
    (p : List Nat) (hinv : InvUpd H t) :
    InvUpd H (update H t k v p).2 := by
  obtain ⟨hd, hleafNum, hnext, hcount, hzeros, hroot, hfpc, hfph, hfpHi,
    hfpLo⟩ := hinv
  by_cases hk : k ≥ t.nextIndex
  · rw [update_of_notInserted H t k v p hk]
    exact ⟨hd, hleafNum, hnext, hcount, hzeros, hroot, hfpc, hfph,
      hfpHi, hfpLo⟩
  · by_cases hcl : t.root = climb H p t.depth 0 k (t.leaves.getD k 0)
    · rw [update_of_verified H t k v p hk hcl]
      have hklen : k < t.leaves.length := by
        rw [← hnext]
        omega
      have hk2 : k < 2 ^ t.depth := by omega
      have hseed : t.leaves.getD k 0 =
          subHash H t.zeroValue t.leaves 0 k := by
        show _ = t.leaves.getD k t.zeroValue
        exact getD_default_irrel t.leaves k 0 t.zeroValue hklen
      have hclimb : climb H p t.depth 0 k (t.leaves.getD k 0) =
          subHash H t.zeroValue t.leaves (0 + t.depth)
            (k / 2 ^ t.depth) := by
        rw [← hcl, hroot, Nat.zero_add, Nat.div_eq_of_lt hk2]
      obtain ⟨_, hpath0⟩ := climb_extract H t.zeroValue t.leaves p hinj
        t.depth 0 k (t.leaves.getD k 0) hclimb
      have Hpath : ∀ q, q < t.depth → p.getD q 0 =
          subHash H t.zeroValue t.leaves q (sibIdx (k / 2 ^ q)) := by
        intro q hq
        have := hpath0 q hq
        rw [Nat.zero_add] at this
        exact this
      have hseedmid : UpdMid H t.zeroValue t.leaves k v t.filledPaths 0
          ⟨k, v, t.filledSubtrees, t.filledPaths⟩ := by
        refine ⟨by simp, ?_, fun i j _ => rfl, ?_, fun i j h => h⟩
        · show v = subHash H t.zeroValue (t.leaves.set k v) 0
            (k / 2 ^ 0)
          simp only [pow_zero, Nat.div_one, subHash]
          exact (getD_set_self t.leaves k v t.zeroValue hklen).symm
        · intro i j w hi
          omega
      have hfold := updMid_fold H t.zeroValue t.leaves k v p
        t.filledPaths t.depth hklen Hpath hfpc t.depth 0 _ (by omega)
        hseedmid
      rw [Nat.zero_add] at hfold
      obtain ⟨hc2, hcur2, hfpHi2, hfpLo2, hpres2⟩ := hfold
      refine ⟨hd, hleafNum, ?_, ?_, hzeros, ?_, ?_, ?_, ?_, ?_⟩
      · show t.nextIndex = (t.leaves.set k v).length
        rw [List.length_set]
        exact hnext
      · show (t.leaves.set k v).length ≤ 2 ^ t.depth
        rw [List.length_set]
        exact hcount
      · show (foldLevels (updateStep H p) 0 t.depth
          { curIdx := k, cur := v, fs := t.filledSubtrees,
            fp := t.filledPaths }).cur =
          subHash H t.zeroValue (t.leaves.set k v) t.depth 0
        rw [hcur2, Nat.div_eq_of_lt hk2]
      · intro i j w hv
        replace hv : (foldLevels (updateStep H p) 0 t.depth
          { curIdx := k, cur := v, fs := t.filledSubtrees,
            fp := t.filledPaths }).fp i j = some w := hv
        rcases Nat.lt_or_ge i t.depth with hi | hi
        · exact hfpLo2 i j w hi hv
        · rw [hfpHi2 i j hi, hfph i j hi] at hv
          exact absurd hv (by simp)
      · intro i j hi
        show (foldLevels (updateStep H p) 0 t.depth
          { curIdx := k, cur := v, fs := t.filledSubtrees,
            fp := t.filledPaths }).fp i j = none
        rw [hfpHi2 i j hi]
        exact hfph i j hi
      · intro i j h1 h2 h3
        exact hpres2 i j (hfpHi i j h1 h2 h3)
      · intro j hj
        replace hj : j < (t.leaves.set k v).length := hj
        rw [List.length_set] at hj
        obtain ⟨p1, p2⟩ := hfpLo j hj
        exact ⟨hpres2 0 j p1, hpres2 0 (sibIdx j) p2⟩
    · rw [update_of_mismatch H t k v p hk hcl]
      exact ⟨hd, hleafNum, hnext, hcount, hzeros, hroot, hfpc, hfph,
        hfpHi, hfpLo⟩

/-- Every tree reachable by construction, inserts, then updates
satisfies `InvUpd`, for an injective hash. -/
theorem reachUpd_inv (H : Nat → Nat → Nat)
    (hinj : Function.Injective2 H) {t : Tree} (h : ReachUpd H t) :
    InvUpd H t := by
  induction h with
  | ofIns hins => exact (reachIns_inv H hins).toInvUpd
  | upd k v p _ ih => exact update_inv H hinj _ k v p ih

/-! ### Concrete hash for witnesses: the Cantor-style pairing function -/

theorem pair_injective2 : Function.Injective2 Nat.pair :=
  fun _ _ _ _ h => Nat.pair_eq_pair.mp h

/-! ### Claim theorems -/

/-- C5: for every `depth ≥ 1` and every `zeroValue`, constructing a tree
and performing no inserts yields
`root = hashPair(zerosByLevel[depth-1], zerosByLevel[depth-1])`, where
`zerosByLevel[0] = zeroValue` and
`zerosByLevel[i+1] = hashPair(zerosByLevel[i], zerosByLevel[i])`. -/
theorem C5_empty_root (H : Nat → Nat → Nat) (d z : Nat) (_hd : 1 ≤ d) :
    (mkTree H d z).root =
      H ((mkTree H d z).zeros (d - 1)) ((mkTree H d z).zeros (d - 1)) ∧
    (mkTree H d z).zeros 0 = z ∧
    (∀ i, (mkTree H d z).zeros (i + 1) =
      H ((mkTree H d z).zeros i) ((mkTree H d z).zeros i)) :=
  ⟨rfl, rfl, fun _ => rfl⟩

/-- Witness for C5 at `depth = 3`, `zeroValue = 0`, `H = Nat.pair`. -/
theorem C5_empty_root_witness :
    (mkTree Nat.pair 3 0).root =
      Nat.pair ((mkTree Nat.pair 3 0).zeros 2)
        ((mkTree Nat.pair 3 0).zeros 2) ∧
    (mkTree Nat.pair 3 0).zeros 0 = 0 ∧
    (∀ i, (mkTree Nat.pair 3 0).zeros (i + 1) =
      Nat.pair ((mkTree Nat.pair 3 0).zeros i)
        ((mkTree Nat.pair 3 0).zeros i)) :=
  C5_empty_root Nat.pair 3 0 (by norm_num)

/-- C7: after construction, for every level `i` in `[1, depth)` and
every index `j < 2^(depth-i)`, `filledPaths[i][j]` equals
`zerosByLevel[i]`, the all-zero-subtree digest at level `i`. -/
theorem C7_initial_filledPaths (H : Nat → Nat → Nat) (d z i j : Nat)
    (h1 : 1 ≤ i) (h2 : i < d) (h3 : j < 2 ^ (d - i)) :
    (mkTree H d z).filledPaths i j = some ((mkTree H d z).zeros i) := by
  show initFilledPaths H z d i j = some (zerosFun H z i)
  unfold initFilledPaths
  rw [if_pos ⟨h1, h2, h3⟩]
  congr 1
  by_cases hi1 : i = 1
  · rw [if_pos hi1, hi1]
    rfl
  · rw [if_neg hi1]
    have h : i - 1 + 1 = i := by omega
    conv_rhs => rw [← h]
    rfl

/-- Witness for C7 at `depth = 3`, level 2, index 1. -/
theorem C7_initial_filledPaths_witness :
    (mkTree Nat.pair 3 0).filledPaths 2 1 =
      some ((mkTree Nat.pair 3 0).zeros 2) :=
  C7_initial_filledPaths Nat.pair 3 0 2 1 (by norm_num) (by norm_num)
    (by norm_num)

/-- C9: `leafExists` and `getPathUpdate` are read-only: for any
arguments, the tree state when the call returns (or throws) is the input
state, so `root`, `filledPaths`, `filledSubtrees`, `leaves` and
`nextIndex` are unchanged no matter how often they are called. -/
theorem C9_reads_pure (H : Nat → Nat → Nat) (t : Tree)
    (k leaf k' : Nat) (p : List Nat) :
    (leafExists H t k leaf p).2 = t ∧ (getPathUpdate t k').2 = t :=
  ⟨leafExists_snd H t k leaf p, getPathUpdate_snd t k'⟩

/-- C3: on any reachable tree, `insert` fails (with `CapacityExceeded`)
exactly when `nextIndex` equals the capacity `2^depth` (`= leafNumber`),
and a failed insert leaves the whole tree state unchanged. -/
theorem C3_insert_capacity (H : Nat → Nat → Nat) {t : Tree}
    (hre : Reach H t) (leaf : Nat) :
    ((insert H t leaf).1 = .error .capacityExceeded ↔
      t.nextIndex = 2 ^ t.depth) ∧
    t.leafNumber = 2 ^ t.depth ∧
    ((insert H t leaf).1 = .error .capacityExceeded →
      (insert H t leaf).2 = t) := by
  obtain ⟨h1, h2, h3⟩ := reach_basic H hre
  by_cases hfull : t.nextIndex + 1 > t.leafNumber
  · rw [insert_of_full H t leaf hfull]
    refine ⟨⟨fun _ => ?_, fun _ => rfl⟩, h1, fun _ => rfl⟩
    rw [h1] at hfull
    omega
  · rw [insert_of_space H t leaf hfull]
    refine ⟨⟨fun hcontra => ?_, fun heq => ?_⟩, h1, fun hcontra => ?_⟩
    · exact absurd hcontra (by simp)
    · rw [h1] at hfull
      exact absurd heq (by omega)
    · exact absurd hcontra (by simp)

/-- The full depth-1 tree used by the C3 witness. -/
def treeFull : Tree :=
  (insert Nat.pair ((insert Nat.pair (mkTree Nat.pair 1 0) 1).2) 2).2

/-- Witness for C3: on a full depth-1 tree the third insert fails with
`CapacityExceeded` and changes nothing. -/
theorem C3_insert_capacity_witness :
    ((insert Nat.pair treeFull 3).1 = .error .capacityExceeded ↔
      treeFull.nextIndex = 2 ^ treeFull.depth) ∧
    treeFull.leafNumber = 2 ^ treeFull.depth ∧
    ((insert Nat.pair treeFull 3).1 = .error .capacityExceeded →
      (insert Nat.pair treeFull 3).2 = treeFull) :=
  C3_insert_capacity Nat.pair
    (Reach.ins 2 (Reach.ins 1 (Reach.init 1 0 (by norm_num)))) 3

/-- C8: `getPathUpdate(k)` fails with `LeafNotInserted` exactly when
`k ≥ nextIndex`; on success it returns the path of length `depth` whose
`i`-th entry is `filledPaths[i][s_i]`, together with the pairs
`(i, s_i)`, where `s_i` is the sibling `k/2^i + 1` or `k/2^i - 1`
according to the parity of the cursor `k/2^i`. -/
theorem C8_getPathUpdate_spec (t : Tree) (k : Nat) :
    (k ≥ t.nextIndex →
      (getPathUpdate t k).1 = .error .leafNotInserted) ∧
    (¬ k ≥ t.nextIndex →
      (getPathUpdate t k).1 = .ok
        ((List.range t.depth).map
          (fun i => t.filledPaths i (sibIdx (k / 2 ^ i))),
         (List.range t.depth).map
          (fun i => (i, sibIdx (k / 2 ^ i)))) ∧
      ((List.range t.depth).map
        (fun i => t.filledPaths i (sibIdx (k / 2 ^ i)))).length =
        t.depth) := by
  constructor
  · intro hk
    unfold getPathUpdate
    rw [if_pos hk]
  · intro hk
    unfold getPathUpdate
    rw [if_neg hk]
    refine ⟨?_, by simp⟩
    dsimp only
    rw [getPathLoop t.filledPaths t.depth 0 k [] []]
    simp

/-- Witness for C8 on the full depth-1 tree: index 5 is not inserted,
index 1 is. -/
theorem C8_getPathUpdate_spec_witness :
    (getPathUpdate treeFull 5).1 = .error .leafNotInserted ∧
    ((getPathUpdate treeFull 1).1 = .ok
        ((List.range treeFull.depth).map
          (fun i => treeFull.filledPaths i (sibIdx (1 / 2 ^ i))),
         (List.range treeFull.depth).map
          (fun i => (i, sibIdx (1 / 2 ^ i)))) ∧
      ((List.range treeFull.depth).map
        (fun i => treeFull.filledPaths i (sibIdx (1 / 2 ^ i)))).length =
        treeFull.depth) :=
  ⟨(C8_getPathUpdate_spec treeFull 5).1 (by decide),
   (C8_getPathUpdate_spec treeFull 1).2 (by decide)⟩

/-- C4: on any reachable tree, for `k < nextIndex`,
`update(k, v, path)` succeeds if and only if `path` authenticates the
currently stored leaf `leaves[k]` (i.e. `leafExists(k, leaves[k], path)`
returns `true`); a failing check yields `ProofMismatch` with the state
unchanged; `k ≥ nextIndex` yields `LeafNotInserted` with the state
unchanged; and on success `leaves[k]` becomes `v`. -/
theorem C4_update_contract (H : Nat → Nat → Nat) {t : Tree}
    (hre : Reach H t) (k v : Nat) (p : List Nat) :
    (k ≥ t.nextIndex →
      update H t k v p = (.error .leafNotInserted, t)) ∧
    (¬ k ≥ t.nextIndex →
      ((update H t k v p).1 = .ok () ↔
        (leafExists H t k (t.leaves.getD k 0) p).1 = .ok true) ∧
      ((leafExists H t k (t.leaves.getD k 0) p).1 = .ok false →
        update H t k v p = (.error .proofMismatch, t)) ∧
      ((update H t k v p).1 = .ok () →
        (update H t k v p).2.leaves = t.leaves.set k v ∧
        (update H t k v p).2.leaves.getD k 0 = v)) := by
  obtain ⟨h1, h2, h3⟩ := reach_basic H hre
  constructor
  · intro hk
    exact update_of_notInserted H t k v p hk
  · intro hk
    have hklen : k < t.leaves.length := by
      rw [← h2]
      omega
    rw [leafExists_fst, if_neg hk]
    by_cases hcl : t.root = climb H p t.depth 0 k (t.leaves.getD k 0)
    · rw [update_of_verified H t k v p hk hcl, decide_eq_true hcl]
      refine ⟨by simp, ?_, ?_⟩
      · intro hfalse
        exact absurd hfalse (by simp)
      · intro _
        refine ⟨rfl, ?_⟩
        show (t.leaves.set k v).getD k 0 = v
        exact getD_set_self t.leaves k v 0 hklen
    · rw [update_of_mismatch H t k v p hk hcl, decide_eq_false hcl]
      refine ⟨?_, fun _ => rfl, ?_⟩
      · constructor
        · intro hcontra
          exact absurd hcontra (by simp)
        · intro hcontra
          exact absurd hcontra (by simp)
      · intro hcontra
        exact absurd hcontra (by simp)

/-- Witness for C4 on the full depth-1 tree, updating index 0 with the
valid path `[2]` and also exercising the not-inserted branch. -/
theorem C4_update_contract_witness :
    (5 ≥ treeFull.nextIndex →
      update Nat.pair treeFull 5 7 [2] =
        (.error .leafNotInserted, treeFull)) ∧
    (¬ 0 ≥ treeFull.nextIndex →
      ((update Nat.pair treeFull 0 7 [2]).1 = .ok () ↔
        (leafExists Nat.pair treeFull 0 (treeFull.leaves.getD 0 0)
          [2]).1 = .ok true) ∧
      ((leafExists Nat.pair treeFull 0 (treeFull.leaves.getD 0 0)
          [2]).1 = .ok false →
        update Nat.pair treeFull 0 7 [2] =
          (.error .proofMismatch, treeFull)) ∧
      ((update Nat.pair treeFull 0 7 [2]).1 = .ok () →
        (update Nat.pair treeFull 0 7 [2]).2.leaves =
          treeFull.leaves.set 0 7 ∧
        (update Nat.pair treeFull 0 7 [2]).2.leaves.getD 0 0 = 7)) :=
  ⟨(C4_update_contract Nat.pair
      (Reach.ins 2 (Reach.ins 1 (Reach.init 1 0 (by norm_num)))) 5 7
      [2]).1,
   (C4_update_contract Nat.pair
      (Reach.ins 2 (Reach.ins 1 (Reach.init 1 0 (by norm_num)))) 0 7
      [2]).2⟩

/-- `updateStep` leaves every `filledPaths` key other than the cursor
and its sibling at its own level unchanged. -/
theorem updateStep_fp_frame (H : Nat → Nat → Nat) (p : List Nat)
    (a : Nat) (s : InsLoop) (i j : Nat)
    (h : i ≠ a ∨ (j ≠ s.curIdx ∧ j ≠ sibIdx s.curIdx)) :
    (updateStep H p a s).fp i j = s.fp i j := by
  unfold updateStep
  rcases Nat.mod_two_eq_zero_or_one s.curIdx with hpar | hpar
  · rw [if_pos hpar]
    dsimp only
    rcases h with h | ⟨h1, h2⟩
    · rw [if_neg (fun hh => h hh.1), if_neg (fun hh => h hh.1)]
    · rw [sibIdx_of_even hpar] at h2
      rw [if_neg (fun hh => h2 hh.2), if_neg (fun hh => h1 hh.2)]
  · rw [if_neg (by omega)]
    dsimp only
    rcases h with h | ⟨h1, h2⟩
    · rw [if_neg (fun hh => h hh.1), if_neg (fun hh => h hh.1)]
    · rw [sibIdx_of_odd hpar] at h2
      rw [if_neg (fun hh => h1 hh.2), if_neg (fun hh => h2 hh.2)]

/-- The level loop of `update` does not touch `filledSubtrees`, and
touches `filledPaths` only at the cursor and sibling keys of the levels
it visits. -/
theorem updLoop_frame (H : Nat → Nat → Nat) (p : List Nat) (k : Nat) :
    ∀ r a s, s.curIdx = k / 2 ^ a →
    (foldLevels (updateStep H p) a r s).fs = s.fs ∧
    (∀ i j, ¬(a ≤ i ∧ i < a + r ∧
        (j = k / 2 ^ i ∨ j = sibIdx (k / 2 ^ i))) →
      (foldLevels (updateStep H p) a r s).fp i j = s.fp i j) := by
  intro r
  induction r with
  | zero =>
    intro a s _
    exact ⟨rfl, fun i j _ => rfl⟩
  | succ r ih =>
    intro a s hc
    rw [foldLevels_succ]
    have hc' : (updateStep H p a s).curIdx = k / 2 ^ (a + 1) := by
      unfold updateStep
      split
      · dsimp only
        rw [hc, div_pow_succ]
      · dsimp only
        rw [hc, div_pow_succ]
    obtain ⟨ihfs, ihfp⟩ := ih (a + 1) (updateStep H p a s) hc'
    have hstepfs : (updateStep H p a s).fs = s.fs := by
      unfold updateStep
      split
      · rfl
      · rfl
    refine ⟨by rw [ihfs, hstepfs], ?_⟩
    intro i j hout
    have hout' : ¬(a + 1 ≤ i ∧ i < a + 1 + r ∧
        (j = k / 2 ^ i ∨ j = sibIdx (k / 2 ^ i))) := by
      intro hin
      obtain ⟨x1, x2, x3⟩ := hin
      exact hout ⟨by omega, by omega, x3⟩
    rw [ihfp i j hout']
    apply updateStep_fp_frame
    by_cases hi : i = a
    · subst hi
      have hj : ¬(j = k / 2 ^ i ∨ j = sibIdx (k / 2 ^ i)) := by
        intro hj
        exact hout ⟨Nat.le_refl i, by omega, hj⟩
      right
      rw [hc]
      exact ⟨fun h => hj (Or.inl h), fun h => hj (Or.inr h)⟩
    · exact Or.inl hi

/-- C10: a successful `update(k, v, path)` leaves `nextIndex`, the
number of leaves, `zeros`, `filledSubtrees` (even though the updated
subtree digests change), `depth`, `zeroValue` and `leafNumber`
unchanged, leaves every other leaf value unchanged, and modifies
`filledPaths` only at the cursor/sibling keys along the root path of
`k`. -/
theorem C10_update_frame (H : Nat → Nat → Nat) (t : Tree) (k v : Nat)
    (p : List Nat) (hsucc : (update H t k v p).1 = .ok ()) :
    (update H t k v p).2.nextIndex = t.nextIndex ∧
    (update H t k v p).2.leaves.length = t.leaves.length ∧
    (update H t k v p).2.zeros = t.zeros ∧
    (update H t k v p).2.filledSubtrees = t.filledSubtrees ∧
    (update H t k v p).2.depth = t.depth ∧
    (update H t k v p).2.zeroValue = t.zeroValue ∧
    (update H t k v p).2.leafNumber = t.leafNumber ∧
    (∀ j, j ≠ k →
      (update H t k v p).2.leaves.getD j 0 = t.leaves.getD j 0) ∧
    (∀ i j, ¬(i < t.depth ∧
        (j = k / 2 ^ i ∨ j = sibIdx (k / 2 ^ i))) →
      (update H t k v p).2.filledPaths i j = t.filledPaths i j) := by
  by_cases hk : k ≥ t.nextIndex
  · rw [update_of_notInserted H t k v p hk] at hsucc
    exact absurd hsucc (by simp)
  · by_cases hcl : t.root = climb H p t.depth 0 k (t.leaves.getD k 0)
    · rw [update_of_verified H t k v p hk hcl]
      obtain ⟨_, hframefp⟩ := updLoop_frame H p k t.depth 0
        ⟨k, v, t.filledSubtrees, t.filledPaths⟩ (by simp)
      refine ⟨rfl, ?_, rfl, rfl, rfl, rfl, rfl, ?_, ?_⟩
      · show (t.leaves.set k v).length = t.leaves.length
        exact List.length_set t.leaves k v
      · intro j hj
        show (t.leaves.set k v).getD j 0 = t.leaves.getD j 0
        exact getD_set_ne t.leaves k v j 0 hj
      · intro i j hout
        show (foldLevels (updateStep H p) 0 t.depth
          { curIdx := k, cur := v, fs := t.filledSubtrees,
            fp := t.filledPaths }).fp i j = t.filledPaths i j
        refine hframefp i j ?_
        intro ⟨_, x2, x3⟩
        exact hout ⟨by omega, x3⟩
    · rw [update_of_mismatch H t k v p hk hcl] at hsucc
      exact absurd hsucc (by simp)

/-- Witness for C10: the successful `update(0, 7, [2])` on the full
depth-1 tree. -/
theorem C10_update_frame_witness :
    (update Nat.pair treeFull 0 7 [2]).2.nextIndex =
      treeFull.nextIndex ∧
    (update Nat.pair treeFull 0 7 [2]).2.leaves.length =
      treeFull.leaves.length ∧
    (update Nat.pair treeFull 0 7 [2]).2.zeros = treeFull.zeros ∧
    (update Nat.pair treeFull 0 7 [2]).2.filledSubtrees =
      treeFull.filledSubtrees ∧
    (update Nat.pair treeFull 0 7 [2]).2.depth = treeFull.depth ∧
    (update Nat.pair treeFull 0 7 [2]).2.zeroValue =
      treeFull.zeroValue ∧
    (update Nat.pair treeFull 0 7 [2]).2.leafNumber =
      treeFull.leafNumber ∧
    (∀ j, j ≠ 0 →
      (update Nat.pair treeFull 0 7 [2]).2.leaves.getD j 0 =
        treeFull.leaves.getD j 0) ∧
    (∀ i j, ¬(i < treeFull.depth ∧
        (j = 0 / 2 ^ i ∨ j = sibIdx (0 / 2 ^ i))) →
      (update Nat.pair treeFull 0 7 [2]).2.filledPaths i j =
        treeFull.filledPaths i j) :=
  C10_update_frame Nat.pair treeFull 0 7 [2] (by rfl)

/-- C2: on any tree built by construction and inserts only, for every
inserted index `k`, `getPathUpdate(k)` succeeds with a path of present
entries, and `leafExists(k, leaves[k], path)` returns `true`. -/
theorem C2_roundTrip (H : Nat → Nat → Nat) {t : Tree}
    (hre : ReachIns H t) (k : Nat) (hk : k < t.nextIndex) :
    ∃ path pairs, (getPathUpdate t k).1 = .ok (path, pairs) ∧
      (∀ o ∈ path, o.isSome = true) ∧
      (leafExists H t k (t.leaves.getD k 0) (pathValues path)).1 =
        .ok true := by
  obtain ⟨⟨hd, hleafNum, hnext, hcount, hzeros, hroot, hfpc, hfph,
    hfpHi, hfpLo⟩, hfs⟩ := reachIns_inv H hre
  have hklen : k < t.leaves.length := by
    rw [← hnext]
    exact hk
  have hk2 : k < 2 ^ t.depth := by omega
  have hsib_some : ∀ i, i < t.depth →
      (t.filledPaths i (sibIdx (k / 2 ^ i))).isSome = true := by
    intro i hi
    rcases Nat.eq_zero_or_pos i with h0 | hpos
    · subst h0
      have := (hfpLo k hklen).2
      simpa using this
    · have hdivlt : k / 2 ^ i < 2 ^ (t.depth - i) :=
        div_pow_lt hk2 (by omega)
      have hsiblt : sibIdx (k / 2 ^ i) < 2 ^ (t.depth - i) :=
        sibIdx_lt hdivlt (by omega)
      exact hfpHi i _ hpos hi hsiblt
  have hentry : ∀ i, i < t.depth →
      (t.filledPaths i (sibIdx (k / 2 ^ i))).getD 0 =
        subHash H t.zeroValue t.leaves i (sibIdx (k / 2 ^ i)) := by
    intro i hi
    obtain ⟨w, hw⟩ := Option.isSome_iff_exists.mp (hsib_some i hi)
    rw [hw]
    show w = _
    exact hfpc i _ w hw
  refine ⟨(List.range t.depth).map
      (fun i => t.filledPaths i (sibIdx (k / 2 ^ i))),
    (List.range t.depth).map (fun i => (i, sibIdx (k / 2 ^ i))),
    ?_, ?_, ?_⟩
  · unfold getPathUpdate
    rw [if_neg (by omega)]
    dsimp only
    rw [getPathLoop t.filledPaths t.depth 0 k [] []]
    simp
  · intro o ho
    rw [List.mem_map] at ho
    obtain ⟨i, hi, rfl⟩ := ho
    rw [List.mem_range] at hi
    exact hsib_some i hi
  · rw [leafExists_fst, if_neg (by omega)]
    have hvals : pathValues ((List.range t.depth).map
        (fun i => t.filledPaths i (sibIdx (k / 2 ^ i)))) =
        (List.range t.depth).map
          (fun i => (t.filledPaths i (sibIdx (k / 2 ^ i))).getD 0) := by
      unfold pathValues
      rw [List.map_map]
      rfl
    have hpath : ∀ q, q < t.depth →
        (pathValues ((List.range t.depth).map
          (fun i => t.filledPaths i (sibIdx (k / 2 ^ i))))).getD q 0 =
        subHash H t.zeroValue t.leaves q (sibIdx (k / 2 ^ q)) := by
      intro q hq
      rw [hvals, getD_range_map _ t.depth q 0 hq]
      exact hentry q hq
    have hseed : t.leaves.getD k 0 =
        subHash H t.zeroValue t.leaves 0 k := by
      show _ = t.leaves.getD k t.zeroValue
      exact getD_default_irrel t.leaves k 0 t.zeroValue hklen
    have hclimb := climb_correct H t.zeroValue t.leaves
      (pathValues ((List.range t.depth).map
        (fun i => t.filledPaths i (sibIdx (k / 2 ^ i)))))
      t.depth 0 k (by simpa using hpath)
    rw [Nat.zero_add] at hclimb
    have : t.root = climb H (pathValues ((List.range t.depth).map
        (fun i => t.filledPaths i (sibIdx (k / 2 ^ i)))))
        t.depth 0 k (t.leaves.getD k 0) := by
      rw [hseed, hclimb, Nat.div_eq_of_lt hk2, hroot]
    rw [decide_eq_true this]

/-- Witness for C2 on the full depth-1 insert-only tree, index 1. -/
theorem C2_roundTrip_witness :
    ∃ path pairs, (getPathUpdate treeFull 1).1 = .ok (path, pairs) ∧
      (∀ o ∈ path, o.isSome = true) ∧
      (leafExists Nat.pair treeFull 1 (treeFull.leaves.getD 1 0)
        (pathValues path)).1 = .ok true :=
  C2_roundTrip Nat.pair
    (ReachIns.ins 2 (ReachIns.ins 1 (ReachIns.init 1 0 (by norm_num))))
    1 (by decide)

/-- C6 (amended): with an injective hash, on any tree built by
construction, inserts, then updates — i.e. provided no insert follows
an update — `leafExists(k, leaf, path)` with `k < nextIndex` and a leaf
value different from the stored `leaves[k]` returns `false` (and in
particular does not throw), for every path.  On states where an insert
follows an update the property fails (see the counterexample): the
stale `filledSubtrees` entry corrupts `root`, and a wrong leaf value
can then verify. -/
theorem C6_wrong_leaf_false (H : Nat → Nat → Nat)
    (hinj : Function.Injective2 H) {t : Tree} (hre : ReachUpd H t)
    (k : Nat) (hk : k < t.nextIndex) (leaf : Nat)
    (hne : leaf ≠ t.leaves.getD k 0) (p : List Nat) :
    (leafExists H t k leaf p).1 = .ok false := by
  obtain ⟨hd, hleafNum, hnext, hcount, hzeros, hroot, hfpc, hfph,
    hfpHi, hfpLo⟩ := reachUpd_inv H hinj hre
  have hklen : k < t.leaves.length := by
    rw [← hnext]
    exact hk
  have hk2 : k < 2 ^ t.depth := by omega
  rw [leafExists_fst, if_neg (by omega)]
  have hfalse : ¬ t.root = climb H p t.depth 0 k leaf := by
    intro heq
    have hclimb : climb H p t.depth 0 k leaf =
        subHash H t.zeroValue t.leaves (0 + t.depth)
          (k / 2 ^ t.depth) := by
      rw [← heq, hroot, Nat.zero_add, Nat.div_eq_of_lt hk2]
    obtain ⟨hleaf, _⟩ := climb_extract H t.zeroValue t.leaves p hinj
      t.depth 0 k leaf hclimb
    apply hne
    rw [hleaf]
    show t.leaves.getD k t.zeroValue = _
    exact getD_default_irrel t.leaves k t.zeroValue 0 hklen
  rw [decide_eq_false hfalse]

/-- Witness for C6 on the full depth-1 tree: value 9 was never stored at
index 0. -/
theorem C6_wrong_leaf_false_witness :
    (leafExists Nat.pair treeFull 0 9 [5]).1 = .ok false :=
  C6_wrong_leaf_false Nat.pair pair_injective2
    (ReachUpd.ofIns
      (ReachIns.ins 2 (ReachIns.ins 1 (ReachIns.init 1 0
        (by norm_num)))))
    0 (by decide) 9 (by decide) [5]

/-- The depth-1 tree of the C1 counterexample: insert 1, update leaf 0
to 2 with the (valid) path `[0]`, then insert 3.  The second insert
reads the stale `filledSubtrees[0] = 1`, so the root no longer matches
the leaves `[2, 3]`. -/
def treeStale : Tree :=
  (insert Nat.pair
    ((update Nat.pair ((insert Nat.pair (mkTree Nat.pair 1 0) 1).2)
      0 2 [0]).2) 3).2

/-- Counterexample to C6 as stated: on the reachable state `treeStale`
(insert 1; verified update of leaf 0 to 2; insert 3, each successful),
with the injective hash `Nat.pair`, `leafExists(0, 1, [3])` returns
`true` although index 0 is inserted (`0 < nextIndex`) and
`1 ≠ leaves[0] = 2`: the stale `filledSubtrees[0]` made the root
`H(1, 3)`, which the path `[3]` authenticates for the wrong leaf
value `1`. -/
theorem C6_wrong_leaf_counterexample :
    Function.Injective2 Nat.pair ∧
    (insert Nat.pair (mkTree Nat.pair 1 0) 1).1 = .ok () ∧
    (update Nat.pair ((insert Nat.pair (mkTree Nat.pair 1 0) 1).2)
      0 2 [0]).1 = .ok () ∧
    (insert Nat.pair
      ((update Nat.pair ((insert Nat.pair (mkTree Nat.pair 1 0) 1).2)
        0 2 [0]).2) 3).1 = .ok () ∧
    0 < treeStale.nextIndex ∧
    (1 : Nat) ≠ treeStale.leaves.getD 0 0 ∧
    (leafExists Nat.pair treeStale 0 1 [3]).1 = .ok true :=
  ⟨pair_injective2, rfl, rfl, rfl, by decide, by decide, rfl⟩

/-- Counterexample to C1 as stated: a sequence of successful operations
(insert, update, insert) after which `root` is not the Merkle root of
the current leaves padded with the zero value.  `update` does not
refresh `filledSubtrees`, and the following `insert` consumes the stale
entry. -/
theorem C1_root_invariant_counterexample :
    (insert Nat.pair (mkTree Nat.pair 1 0) 1).1 = .ok () ∧
    (update Nat.pair ((insert Nat.pair (mkTree Nat.pair 1 0) 1).2)
      0 2 [0]).1 = .ok () ∧
    (insert Nat.pair
      ((update Nat.pair ((insert Nat.pair (mkTree Nat.pair 1 0) 1).2)
        0 2 [0]).2) 3).1 = .ok () ∧
    treeStale.root ≠
      subHash Nat.pair treeStale.zeroValue treeStale.leaves
        treeStale.depth 0 := by
  refine ⟨rfl, rfl, rfl, ?_⟩
  decide

/-- C1 (amended): after construction with positive depth, any number of
successful inserts, and then any number of successful updates — i.e. as
long as no insert follows an update — `root` equals the Merkle root of
the current leaves padded with `zeroValue` to `2^depth` leaves (hash
modelled as injective). -/
theorem C1_root_invariant_insThenUpd (H : Nat → Nat → Nat)
    (hinj : Function.Injective2 H) {t : Tree} (hre : ReachUpd H t) :
    t.root = subHash H t.zeroValue t.leaves t.depth 0 :=
  (reachUpd_inv H hinj hre).root_eq

/-- Witness for the amended C1: the full depth-1 tree after a verified
update of leaf 0. -/
theorem C1_root_invariant_insThenUpd_witness :
    (update Nat.pair treeFull 0 7 [2]).2.root =
      subHash Nat.pair (update Nat.pair treeFull 0 7 [2]).2.zeroValue
        (update Nat.pair treeFull 0 7 [2]).2.leaves
        (update Nat.pair treeFull 0 7 [2]).2.depth 0 :=
  C1_root_invariant_insThenUpd Nat.pair pair_injective2
    (ReachUpd.upd 0 7 [2]
      (ReachUpd.ofIns
        (ReachIns.ins 2 (ReachIns.ins 1 (ReachIns.init 1 0
          (by norm_num))))))

end Merkle
